import Mathlib

/-!
Verification of yggdrasil-jumper against its specification.

Shallow embedding of the relevant parts of the source tree:
`src/yggdrasil_dpi.rs`, `src/protocol.rs`, `src/bridge.rs`, `src/session.rs`,
`src/network.rs`, `src/stun.rs`, `src/utils/timeout.rs`, `src/utils/defer.rs`.

Machine integers are modeled as `Nat`; bytes are `Nat` values below 256.
Wherever the original `u64`/`usize` arithmetic cannot wrap (argued in the
doc comment of each definition) plain `Nat` arithmetic is used directly.
-/

namespace YggdrasilJumper

/-! ### Varint decoding — `decode_varint` in `src/yggdrasil_dpi.rs` -/

/-- Result of `decode_varint` (`enum Varint` in `yggdrasil_dpi.rs`). -/
inductive Varint where
  | ok (value : Nat) (varint_len : Nat)
  | truncated
  | invalid
deriving DecidableEq

/-- `VARINT_MAX_LEN` from `decode_varint`. -/
def VARINT_MAX_LEN : Nat := 9

/-- The `for i in 0..VARINT_MAX_LEN` loop of `decode_varint`, with `left` the
number of iterations remaining (`left = VARINT_MAX_LEN - i`).  Falling out of
the loop (`left = 0`) returns `Varint::Invalid` as in the source.  The `u64`
accumulator never wraps: every or-ed term is `(e & 0x7f) << (i*7)` with
`i*7 ≤ 56`, hence below `2 ^ 63`, so `Nat` arithmetic is faithful. -/
def decodeVarintLoop (buf : List Nat) : Nat → Nat → Nat → Varint
  | 0, _, _ => Varint.invalid
  | left + 1, i, value =>
    match buf[i]? with
    | none => Varint.truncated
    | some e =>
      let value := value ||| ((e &&& 0x7f) <<< (i * 7))
      if e &&& 0x80 == 0 then Varint.ok value (i + 1)
      else decodeVarintLoop buf left (i + 1) value

/-- `decode_varint` from `src/yggdrasil_dpi.rs`. -/
def decode_varint (buf : List Nat) : Varint :=
  decodeVarintLoop buf VARINT_MAX_LEN 0 0

/-- Canonical LEB128-style encoding of `v` (the encoding named by the spec:
7-bit groups, little endian, continuation bit `0x80`), written with explicit
fuel for structural recursion.  `encodeVarintAux fuel v` is the canonical
encoding whenever `v < 128 ^ fuel`. -/
def encodeVarintAux : Nat → Nat → List Nat
  | 0, v => [v % 0x80]
  | fuel + 1, v =>
    if v < 0x80 then [v]
    else (v % 0x80 + 0x80) :: encodeVarintAux fuel (v / 0x80)

/-- Canonical LEB128-style encoding of a `u64` value; 10 groups suffice for
every `v < 2 ^ 70`, which covers the whole `u64` range. -/
def encodeVarint (v : Nat) : List Nat :=
  encodeVarintAux 10 v

lemma and_mask_127 (e : Nat) : e &&& 0x7f = e % 128 := by
  have h : (0x7f : Nat) = 2 ^ 7 - 1 := by norm_num
  rw [h, Nat.and_pow_two_sub_one_eq_mod]

lemma and_128_eq_zero_iff (e : Nat) : e &&& 0x80 = 0 ↔ e / 128 % 2 = 0 := by
  have h : (0x80 : Nat) = 2 ^ 7 := by norm_num
  rw [h, Nat.and_two_pow, Nat.testBit_to_div_mod]
  rcases Nat.mod_two_eq_zero_or_one (e / 2 ^ 7) with h2 | h2 <;> simp [h2]

lemma lor_disjoint {acc : Nat} (k b : Nat) (h : acc < 2 ^ k) :
    acc ||| (b <<< k) = acc + b * 2 ^ k := by
  rw [Nat.shiftLeft_eq, Nat.lor_comm, mul_comm b (2 ^ k), ← Nat.mul_add_lt_is_or h,
    Nat.add_comm]

lemma encodeVarintAux_length (fuel : Nat) :
    ∀ v, v < 128 ^ fuel → (encodeVarintAux fuel v).length = max 1 ((Nat.size v + 6) / 7) := by
  induction fuel with
  | zero =>
    intro v hv
    interval_cases v
    simp [encodeVarintAux, Nat.size]
  | succ fuel ih =>
    intro v hv
    by_cases hlt : v < 0x80
    · have hs : Nat.size v ≤ 7 := Nat.size_le.mpr (by omega)
      simp only [encodeVarintAux, if_pos hlt, List.length_cons, List.length_nil]
      omega
    · have hv0 : 128 ≤ v := by norm_num at hlt; omega
      have hx8 : 7 < Nat.size v := Nat.lt_size.mpr (by norm_num; omega)
      set x := Nat.size v with hxdef
      have hvlt : v < 2 ^ x := Nat.lt_size_self v
      have hvge : 2 ^ (x - 1) ≤ v := Nat.lt_size.mp (by omega)
      have hdiv_lt : v / 128 < 2 ^ (x - 7) := by
        rw [Nat.div_lt_iff_lt_mul (by norm_num)]
        calc v < 2 ^ x := hvlt
        _ = 2 ^ (x - 7) * 128 := by
            rw [show (128 : Nat) = 2 ^ 7 by norm_num, ← pow_add]
            congr 1
            omega
      have hdiv_ge : 2 ^ (x - 8) ≤ v / 128 := by
        rw [Nat.le_div_iff_mul_le (by norm_num)]
        calc 2 ^ (x - 8) * 128 = 2 ^ (x - 1) := by
              rw [show (128 : Nat) = 2 ^ 7 by norm_num, ← pow_add]
              congr 1
              omega
        _ ≤ v := hvge
      have hsize_div : Nat.size (v / 128) = x - 7 := by
        have h1 : Nat.size (v / 128) ≤ x - 7 := Nat.size_le.mpr hdiv_lt
        have h2 : x - 8 < Nat.size (v / 128) := Nat.lt_size.mpr hdiv_ge
        omega
      have hdivfuel : v / 128 < 128 ^ fuel := by
        rw [Nat.div_lt_iff_lt_mul (by norm_num)]
        calc v < 128 ^ (fuel + 1) := hv
        _ = 128 ^ fuel * 128 := by rw [pow_succ]
      simp only [encodeVarintAux, if_neg hlt, List.length_cons, ih (v / 0x80) hdivfuel]
      rw [show (0x80 : Nat) = 128 by norm_num, hsize_div]
      omega

lemma getElem_append_cons (front rest : List Nat) (e : Nat) :
    (front ++ e :: rest)[front.length]? = some e := by
  rw [List.getElem?_append_right (Nat.le_refl _)]
  simp

/-- One loop iteration of `decodeVarintLoop` on a byte without the
continuation bit: the loop returns. -/
lemma decodeVarintLoop_last (front rest : List Nat) (acc l e : Nat)
    (he : e < 128) (hacc : acc < 2 ^ (7 * front.length)) :
    decodeVarintLoop (front ++ e :: rest) (l + 1) front.length acc
      = Varint.ok (acc + e * 2 ^ (7 * front.length)) (front.length + 1) := by
  have hz : e &&& 0x80 = 0 := by rw [and_128_eq_zero_iff]; omega
  simp only [decodeVarintLoop, getElem_append_cons, and_mask_127, hz]
  rw [if_pos (by norm_num), Nat.mod_eq_of_lt he,
    show front.length * 7 = 7 * front.length by ring, lor_disjoint _ _ hacc]

/-- One loop iteration of `decodeVarintLoop` on a byte carrying the
continuation bit: the loop advances. -/
lemma decodeVarintLoop_cont (front rest : List Nat) (acc l e : Nat)
    (he : 128 ≤ e) (he2 : e < 256) (hacc : acc < 2 ^ (7 * front.length)) :
    decodeVarintLoop (front ++ e :: rest) (l + 1) front.length acc
      = decodeVarintLoop (front ++ e :: rest) l (front.length + 1)
          (acc + (e - 128) * 2 ^ (7 * front.length)) := by
  have hz : ¬ e &&& 0x80 = 0 := by rw [and_128_eq_zero_iff]; omega
  simp only [decodeVarintLoop, getElem_append_cons, and_mask_127]
  rw [if_neg (by simpa using hz),
    show e % 128 = e - 128 by omega,
    show front.length * 7 = 7 * front.length by ring, lor_disjoint _ _ hacc]

lemma decodeVarintLoop_encode (fuel : Nat) :
    ∀ (v : Nat) (front rest : List Nat) (acc left : Nat),
      v < 128 ^ fuel →
      (encodeVarintAux fuel v).length ≤ left →
      acc < 2 ^ (7 * front.length) →
      decodeVarintLoop (front ++ (encodeVarintAux fuel v ++ rest)) left front.length acc
        = Varint.ok (acc + v * 2 ^ (7 * front.length))
            (front.length + (encodeVarintAux fuel v).length) := by
  induction fuel with
  | zero =>
    intro v front rest acc left hv hlen hacc
    interval_cases v
    simp only [encodeVarintAux, List.length_cons, List.length_nil] at hlen ⊢
    obtain ⟨l, rfl⟩ : ∃ l, left = l + 1 := ⟨left - 1, by omega⟩
    simpa using decodeVarintLoop_last front rest acc l 0 (by norm_num) hacc
  | succ fuel ih =>
    intro v front rest acc left hv hlen hacc
    by_cases hlt : v < 0x80
    · simp only [encodeVarintAux, if_pos hlt, List.length_cons, List.length_nil] at hlen ⊢
      obtain ⟨l, rfl⟩ : ∃ l, left = l + 1 := ⟨left - 1, by omega⟩
      exact decodeVarintLoop_last front rest acc l v (by omega) hacc
    · have hv0 : 128 ≤ v := by omega
      simp only [encodeVarintAux, if_neg hlt, List.length_cons] at hlen ⊢
      obtain ⟨l, rfl⟩ : ∃ l, left = l + 1 := ⟨left - 1, by omega⟩
      have hvm : v % 0x80 + 0x80 < 256 := by omega
      rw [List.cons_append, decodeVarintLoop_cont front _ acc l _ (by omega) hvm hacc]
      have hassoc : front ++ (v % 0x80 + 0x80) :: (encodeVarintAux fuel (v / 0x80) ++ rest)
          = (front ++ [v % 0x80 + 0x80]) ++ (encodeVarintAux fuel (v / 0x80) ++ rest) := by
        simp
      have hlen1 : (front ++ [v % 0x80 + 0x80]).length = front.length + 1 := by simp
      have hdivfuel : v / 0x80 < 128 ^ fuel := by
        rw [show (0x80 : Nat) = 128 by norm_num, Nat.div_lt_iff_lt_mul (by norm_num)]
        calc v < 128 ^ (fuel + 1) := hv
        _ = 128 ^ fuel * 128 := by rw [pow_succ]
      have hpow : 2 ^ (7 * (front.length + 1)) = 2 ^ (7 * front.length) * 128 := by
        rw [show 7 * (front.length + 1) = 7 * front.length + 7 by ring, pow_add]
        norm_num
      have hacc2 : acc + (v % 0x80 + 0x80 - 128) * 2 ^ (7 * front.length)
          < 2 ^ (7 * (front ++ [v % 0x80 + 0x80]).length) := by
        rw [hlen1, hpow]
        have h1 : v % 0x80 + 0x80 - 128 ≤ 127 := by omega
        nlinarith [pow_pos (show 0 < 2 by norm_num) (7 * front.length)]
      have hstep := ih (v / 0x80) (front ++ [v % 0x80 + 0x80]) rest
        (acc + (v % 0x80 + 0x80 - 128) * 2 ^ (7 * front.length)) l hdivfuel (by omega) hacc2
      rw [hlen1] at hstep
      rw [hassoc, hstep]
      congr 1
      · have hsplit : 128 * (v / 128) + v % 128 = v := Nat.div_add_mod v 128
        rw [hpow, show (0x80 : Nat) = 128 by norm_num, show v % 128 + 128 - 128 = v % 128 by omega]
        nlinarith [hsplit]
      · omega

/-- Helper: decoding the canonical encoding of `v < 2 ^ 63`, followed by any
suffix, recovers `v` and consumes exactly the encoded bytes. -/
lemma decode_varint_encode_append (v : Nat) (rest : List Nat) (hv : v < 2 ^ 63) :
    decode_varint (encodeVarint v ++ rest) = Varint.ok v (encodeVarint v).length := by
  have hv10 : v < 128 ^ 10 := lt_of_lt_of_le hv (by norm_num)
  have hlen : (encodeVarintAux 10 v).length ≤ 9 := by
    rw [encodeVarintAux_length 10 v hv10]
    have hs : Nat.size v ≤ 63 := Nat.size_le.mpr hv
    omega
  have h := decodeVarintLoop_encode 10 v [] rest 0 VARINT_MAX_LEN hv10
    (by simpa [VARINT_MAX_LEN] using hlen) (by norm_num)
  simpa [decode_varint, encodeVarint] using h

/-- Helper: the canonical encoding length matches `max 1 (⌈bits v / 7⌉)`
for every `u64` value, with `bits` the binary length `Nat.size`. -/
lemma encodeVarint_length (v : Nat) (hv : v < 2 ^ 63) :
    (encodeVarint v).length = max 1 ((Nat.size v + 6) / 7) :=
  encodeVarintAux_length 10 v (lt_of_lt_of_le hv (by norm_num))

/-- C4 (counterexample): the claim quantifies over every `u64` value, but
`decode_varint` reads at most `VARINT_MAX_LEN = 9` bytes, while the canonical
encoding of `2 ^ 63` (a valid `u64`) has 10 bytes; decoding it returns
`Invalid`, not `Ok { value := 2 ^ 63, varint_len := 10 }`. -/
theorem decode_varint_u64_counterexample :
    decode_varint (encodeVarint (2 ^ 63)) = Varint.invalid ∧
    decode_varint (encodeVarint (2 ^ 63)) ≠ Varint.ok (2 ^ 63) 10 := by
  constructor <;> decide

/-- C4 (amended): for every `v < 2 ^ 63` — every value whose canonical
LEB128-style encoding fits in the decoder's 9-byte window — `decode_varint`
on the canonical encoding returns `Ok` with the original value and with
`varint_len` equal to `max 1 (⌈bits(v) / 7⌉)`; for `v ≥ 2 ^ 63` the decoder
returns `Invalid` instead.  The two literal examples hold as stated:
`[0x96, 0x01]` decodes to value 150 with length 2 and `[0x80]` is
`Truncated`. -/
theorem decode_varint_canonical (v : Nat) (hv : v < 2 ^ 63) :
    decode_varint (encodeVarint v) = Varint.ok v (encodeVarint v).length ∧
    (encodeVarint v).length = max 1 ((Nat.size v + 6) / 7) ∧
    decode_varint [0x96, 0x01] = Varint.ok 150 2 ∧
    decode_varint [0x80] = Varint.truncated := by
  refine ⟨?_, encodeVarint_length v hv, by decide, by decide⟩
  simpa using decode_varint_encode_append v [] hv

/-- C4 witness: the theorem applied at the spec's concrete input `v = 150`. -/
theorem decode_varint_canonical_witness :
    (150 : Nat) < 2 ^ 63 ∧
      (decode_varint (encodeVarint 150) = Varint.ok 150 (encodeVarint 150).length ∧
       (encodeVarint 150).length = max 1 ((Nat.size 150 + 6) / 7) ∧
       decode_varint [0x96, 0x01] = Varint.ok 150 2 ∧
       decode_varint [0x80] = Varint.truncated) :=
  ⟨by norm_num, decode_varint_canonical 150 (by norm_num)⟩

/-! ### Yggdrasil packet dissection — `parse_yggdrasil_packet` in
`src/yggdrasil_dpi.rs` -/

/-- `enum Packet` from `src/yggdrasil_dpi.rs`. -/
inductive Packet where
  | invalid
  | truncatedHeader
  | truncated (len : Nat)
  | traffic (len : Nat)
  | meta (len : Nat)
deriving DecidableEq

/-- The literal `b"meta"` header bytes. -/
def metaMagic : List Nat := [0x6d, 0x65, 0x74, 0x61]

/-- `parse_yggdrasil_packet` from `src/yggdrasil_dpi.rs`.  The `usize`
arithmetic `6 + u16` and `var_len + len` cannot wrap (`u16 < 2 ^ 16`,
`var_len ≤ 9`, `len < 2 ^ 63`), so `Nat` arithmetic is faithful.  `buf[4]`
and `buf[5]` are only read after the `buf.len() < 6` check, so `getD` with
default 0 is exact. -/
def parse_yggdrasil_packet (buf : List Nat) : Packet :=
  if List.isPrefixOf metaMagic buf then
    if buf.length < 6 then Packet.truncatedHeader
    else
      let len := 6 + (buf.getD 4 0 * 256 + buf.getD 5 0)
      if len ≤ buf.length then Packet.meta len else Packet.truncated len
  else
    match decode_varint buf with
    | Varint.truncated => Packet.truncatedHeader
    | Varint.invalid => Packet.invalid
    | Varint.ok len var_len =>
      if var_len + len > buf.length then Packet.truncated (var_len + len)
      else
        match buf[var_len]? with
        | none => Packet.invalid
        | some packet_type =>
          if packet_type == 9 then Packet.traffic (var_len + len)
          else Packet.meta (var_len + len)

/-- Abstract well-formed Yggdrasil packets as described by the spec: a
`meta` frame (`"meta"` + big-endian 16-bit payload length + payload) or a
varint-length packet whose body starts with the packet-type byte. -/
inductive YggPacket where
  | metaFrame (payload : List Nat)
  | varintPacket (body : List Nat)
deriving DecidableEq

def YggPacket.isVarint : YggPacket → Bool
  | .metaFrame _ => false
  | .varintPacket _ => true

/-- Wire bytes of one abstract packet. -/
def encodePacket : YggPacket → List Nat
  | .metaFrame p => metaMagic ++ [p.length / 256, p.length % 256] ++ p
  | .varintPacket b => encodeVarint b.length ++ b

/-- Well-formedness: a meta payload fits its 16-bit length field; a varint
packet has at least the type byte and a length the decoder can read back. -/
def wfPacket : YggPacket → Bool
  | .metaFrame p => p.length < 2 ^ 16
  | .varintPacket b => 1 ≤ b.length && b.length < 2 ^ 63

/-- Wire bytes of a stream of abstract packets. -/
def encodeStream (pkts : List YggPacket) : List Nat :=
  (pkts.map encodePacket).flatten

/-- No varint packet of the stream sits at a boundary where the remaining
bytes begin with the literal `"meta"` (at such a boundary the parser would
read a meta header instead of the varint length). -/
def noMetaAtVarintBoundary : List YggPacket → Bool
  | [] => true
  | p :: rest =>
    (!(p.isVarint && List.isPrefixOf metaMagic (encodeStream (p :: rest)))) &&
      noMetaAtVarintBoundary rest

/-- The claim's procedure: repeatedly call `parse_yggdrasil_packet` on the
remaining buffer and advance by the returned length, collecting the packet
lengths; stop on any result other than `Meta`/`Traffic`. -/
def parseBoundariesAux : Nat → List Nat → List Nat
  | 0, _ => []
  | fuel + 1, buf =>
    match parse_yggdrasil_packet buf with
    | Packet.meta len => len :: parseBoundariesAux fuel (buf.drop len)
    | Packet.traffic len => len :: parseBoundariesAux fuel (buf.drop len)
    | _ => []

def parseBoundaries (buf : List Nat) : List Nat :=
  parseBoundariesAux buf.length buf

lemma parse_metaFrame (p rest : List Nat) :
    parse_yggdrasil_packet (encodePacket (YggPacket.metaFrame p) ++ rest)
      = Packet.meta (encodePacket (YggPacket.metaFrame p)).length := by
  have hpre : List.isPrefixOf metaMagic (encodePacket (YggPacket.metaFrame p) ++ rest) := by
    rw [List.isPrefixOf_iff_prefix, encodePacket, List.append_assoc, List.append_assoc]
    exact List.prefix_append _ _
  have hlen : (encodePacket (YggPacket.metaFrame p)).length = 6 + p.length := by
    simp [encodePacket, metaMagic]
    omega
  have hget4 : (encodePacket (YggPacket.metaFrame p) ++ rest).getD 4 0 = p.length / 256 := by
    simp [encodePacket, metaMagic, List.getD]
  have hget5 : (encodePacket (YggPacket.metaFrame p) ++ rest).getD 5 0 = p.length % 256 := by
    simp [encodePacket, metaMagic, List.getD]
  rw [parse_yggdrasil_packet, if_pos hpre]
  rw [if_neg (by simp only [List.length_append, hlen]; omega)]
  simp only [hget4, hget5]
  rw [if_pos (by simp only [List.length_append, hlen]; omega)]
  rw [hlen]
  congr 1
  omega

lemma parse_varintPacket (t : Nat) (b2 rest : List Nat)
    (hsz : (t :: b2).length < 2 ^ 63)
    (hnm : ¬ List.isPrefixOf metaMagic
      (encodePacket (YggPacket.varintPacket (t :: b2)) ++ rest)) :
    parse_yggdrasil_packet (encodePacket (YggPacket.varintPacket (t :: b2)) ++ rest)
      = (if t == 9 then Packet.traffic else Packet.meta)
          (encodePacket (YggPacket.varintPacket (t :: b2))).length := by
  have henc : encodePacket (YggPacket.varintPacket (t :: b2)) ++ rest
      = encodeVarint (t :: b2).length ++ (t :: (b2 ++ rest)) := by
    simp [encodePacket]
  have hdec : decode_varint (encodeVarint (t :: b2).length ++ (t :: (b2 ++ rest)))
      = Varint.ok (t :: b2).length (encodeVarint (t :: b2).length).length :=
    decode_varint_encode_append _ _ hsz
  have hget : (encodeVarint (t :: b2).length ++ (t :: (b2 ++ rest)))[(encodeVarint
      (t :: b2).length).length]? = some t := getElem_append_cons _ _ _
  have hbuflen : (encodeVarint (t :: b2).length ++ (t :: (b2 ++ rest))).length
      = (encodeVarint (t :: b2).length).length + (t :: b2).length + rest.length := by
    simp only [List.length_append, List.length_cons]
    omega
  have hlen2 : (encodePacket (YggPacket.varintPacket (t :: b2))).length
      = (encodeVarint (t :: b2).length).length + (t :: b2).length := by
    simp [encodePacket]
  rw [henc] at hnm ⊢
  rw [parse_yggdrasil_packet, if_neg hnm, hdec]
  show (if (encodeVarint (t :: b2).length).length + (t :: b2).length
        > (encodeVarint (t :: b2).length ++ (t :: (b2 ++ rest))).length then
      Packet.truncated ((encodeVarint (t :: b2).length).length + (t :: b2).length)
    else
      match (encodeVarint (t :: b2).length
          ++ (t :: (b2 ++ rest)))[(encodeVarint (t :: b2).length).length]? with
      | none => Packet.invalid
      | some packet_type =>
        if packet_type == 9 then
          Packet.traffic ((encodeVarint (t :: b2).length).length + (t :: b2).length)
        else Packet.meta ((encodeVarint (t :: b2).length).length + (t :: b2).length)) = _
  rw [if_neg (by omega), hget]
  show (if t == 9 then
      Packet.traffic ((encodeVarint (t :: b2).length).length + (t :: b2).length)
    else Packet.meta ((encodeVarint (t :: b2).length).length + (t :: b2).length)) = _
  rw [hlen2]
  by_cases ht : t == 9 <;> simp [ht]

lemma encodePacket_ne_nil (p : YggPacket) : encodePacket p ≠ [] := by
  cases p with
  | metaFrame payload => simp [encodePacket, metaMagic]
  | varintPacket b =>
    simp only [encodePacket, ne_eq, List.append_eq_nil]
    intro ⟨h1, _⟩
    rw [encodeVarint, encodeVarintAux] at h1
    revert h1
    by_cases hb : b.length < 0x80 <;> simp [hb]

lemma length_le_encodeStream (pkts : List YggPacket) :
    pkts.length ≤ (encodeStream pkts).length := by
  induction pkts with
  | nil => simp [encodeStream]
  | cons p rest ih =>
    have hcons : encodeStream (p :: rest) = encodePacket p ++ encodeStream rest := by
      simp [encodeStream]
    have hne : 1 ≤ (encodePacket p).length :=
      Nat.one_le_iff_ne_zero.mpr (by simpa using encodePacket_ne_nil p)
    rw [hcons]
    simp only [List.length_cons, List.length_append]
    omega

lemma parseBoundariesAux_encodeStream (pkts : List YggPacket) :
    ∀ fuel, pkts.length ≤ fuel →
      (∀ p ∈ pkts, wfPacket p = true) →
      noMetaAtVarintBoundary pkts = true →
      parseBoundariesAux fuel (encodeStream pkts)
        = pkts.map (fun p => (encodePacket p).length) := by
  induction pkts with
  | nil =>
    intro fuel _ _ _
    cases fuel with
    | zero => rfl
    | succ f => rfl
  | cons p rest ih =>
    intro fuel hfuel hwf hnm
    obtain ⟨f, rfl⟩ : ∃ f, fuel = f + 1 := ⟨fuel - 1, by simp at hfuel; omega⟩
    have hcons : encodeStream (p :: rest) = encodePacket p ++ encodeStream rest := by
      simp [encodeStream]
    have hnm2 : noMetaAtVarintBoundary rest = true := by
      simp only [noMetaAtVarintBoundary, Bool.and_eq_true] at hnm
      exact hnm.2
    have hwf2 : ∀ q ∈ rest, wfPacket q = true := fun q hq => hwf q (List.mem_cons_of_mem _ hq)
    have hdrop : (encodePacket p ++ encodeStream rest).drop (encodePacket p).length
        = encodeStream rest := List.drop_left _ _
    have ihr := ih f (by simp at hfuel; omega) hwf2 hnm2
    cases p with
    | metaFrame payload =>
      rw [hcons, parseBoundariesAux, parse_metaFrame payload (encodeStream rest)]
      show (encodePacket (YggPacket.metaFrame payload)).length
          :: parseBoundariesAux f ((encodePacket (YggPacket.metaFrame payload)
            ++ encodeStream rest).drop (encodePacket (YggPacket.metaFrame payload)).length)
          = _
      rw [hdrop, ihr, List.map_cons]
    | varintPacket b =>
      have hwfp : wfPacket (YggPacket.varintPacket b) = true := hwf _ (List.mem_cons_self _ _)
      simp only [wfPacket, Bool.and_eq_true, decide_eq_true_eq] at hwfp
      obtain ⟨t, b2, rfl⟩ : ∃ t b2, b = t :: b2 := by
        cases b with
        | nil => simp at hwfp
        | cons t b2 => exact ⟨t, b2, rfl⟩
      have hn0 : (YggPacket.isVarint (YggPacket.varintPacket (t :: b2)) &&
          List.isPrefixOf metaMagic
            (encodeStream (YggPacket.varintPacket (t :: b2) :: rest))) = false := by
        simp only [noMetaAtVarintBoundary, Bool.and_eq_true, Bool.not_eq_true'] at hnm
        exact hnm.1
      have hnm1 : ¬ List.isPrefixOf metaMagic
          (encodePacket (YggPacket.varintPacket (t :: b2)) ++ encodeStream rest) := by
        rw [← hcons]
        simp only [YggPacket.isVarint, Bool.true_and] at hn0
        simp [hn0]
      rw [hcons, parseBoundariesAux,
        parse_varintPacket t b2 (encodeStream rest) hwfp.2 hnm1]
      by_cases ht : t == 9
      · rw [if_pos ht]
        show (encodePacket (YggPacket.varintPacket (t :: b2))).length
            :: parseBoundariesAux f ((encodePacket (YggPacket.varintPacket (t :: b2))
              ++ encodeStream rest).drop
                (encodePacket (YggPacket.varintPacket (t :: b2))).length)
            = _
        rw [hdrop, ihr, List.map_cons]
      · rw [if_neg ht]
        show (encodePacket (YggPacket.varintPacket (t :: b2))).length
            :: parseBoundariesAux f ((encodePacket (YggPacket.varintPacket (t :: b2))
              ++ encodeStream rest).drop
                (encodePacket (YggPacket.varintPacket (t :: b2))).length)
            = _
        rw [hdrop, ihr, List.map_cons]

/-- C5 (amended): for a stream of well-formed packets in which only the
first may be a `meta` frame, and in which no later varint packet sits at a
boundary where the remaining bytes begin with the literal `"meta"`,
repeatedly calling `parse_yggdrasil_packet` and advancing by the returned
length recovers exactly the original packet boundaries.  (The parser itself
is stateless: it recognises a `meta` header at any position where the buffer
begins with `"meta"`, not only at the beginning of a fresh stream — see the
counterexample.) -/
theorem parse_stream_boundaries (pkts : List YggPacket)
    (hwf : ∀ p ∈ pkts, wfPacket p = true)
    (htail : (pkts.drop 1).all YggPacket.isVarint = true)
    (hnm : noMetaAtVarintBoundary pkts = true) :
    parseBoundaries (encodeStream pkts)
      = pkts.map (fun p => (encodePacket p).length) :=
  parseBoundariesAux_encodeStream pkts (encodeStream pkts).length
    (length_le_encodeStream pkts) hwf hnm

/-- The stream refuting the unamended C5: a valid traffic packet followed by
a valid varint packet whose bytes happen to begin with `"meta"`
(varint length 109 is the byte `0x6d = "m"`, and the body starts with
`"eta"`). -/
def cexStream : List YggPacket :=
  [YggPacket.varintPacket [9],
   YggPacket.varintPacket ([0x65, 0x74, 0x61] ++ List.replicate 106 0)]

/-- C5 (counterexample): `cexStream` is a concatenation of valid packets
(varint length followed by a type byte, no meta frame at all), yet the
parser reads a `meta` header at the second packet boundary — a position
other than the beginning of the stream — and the recovered boundaries
`[2, 6, …]` differ from the original `[2, 110]`. -/
theorem parse_stream_meta_counterexample :
    (∀ p ∈ cexStream, wfPacket p = true) ∧
    (cexStream.drop 1).all YggPacket.isVarint = true ∧
    cexStream.map (fun p => (encodePacket p).length) = [2, 110] ∧
    parse_yggdrasil_packet ((encodeStream cexStream).drop 2) = Packet.meta 6 ∧
    parseBoundaries (encodeStream cexStream)
      ≠ cexStream.map (fun p => (encodePacket p).length) := by
  refine ⟨by decide, by decide, by decide, by decide, by decide⟩

/-- C5 witness: the amended theorem applied to a concrete two-packet stream
(an initial meta frame followed by a traffic packet). -/
theorem parse_stream_boundaries_witness :
    parseBoundaries (encodeStream
        [YggPacket.metaFrame [1, 2], YggPacket.varintPacket [9, 5, 6]])
      = [YggPacket.metaFrame [1, 2],
         YggPacket.varintPacket [9, 5, 6]].map (fun p => (encodePacket p).length) :=
  parse_stream_boundaries _ (by decide) (by decide) (by decide)

/-! ### Connection-mode selection — `try_session` step 12 in
`src/protocol.rs`, `ConnectionMode` in `src/bridge.rs` -/

/-- `enum ConnectionMode` from `src/bridge.rs`.  The spec's `ToEndpoint`
mode is `AsClient` (the daemon dials the router's listen URI — the
`connection_mode.as_client()` branch of `start_bridge`), and the spec's
`AsEndpoint` is `AsServer` (the router dials the daemon's loopback
listener). -/
inductive ConnectionMode where
  | any
  | asClient
  | asServer
deriving DecidableEq

/-- `enum PeeringProtocol` from `src/bridge.rs`. -/
inductive PeeringProtocol where
  | tcp
  | tls
  | quic
deriving DecidableEq

/-- `enum HeaderRouterProtocol` from `src/protocol.rs`. -/
inductive HeaderRouterProtocol where
  | tcp
  | quic (server_available : Bool)
  | tls (server_available : Bool)
deriving DecidableEq

/-- `HeaderRouterProtocol::server_available` from `src/protocol.rs`. -/
def HeaderRouterProtocol.server_available : HeaderRouterProtocol → Bool
  | .tcp => true
  | .tls server_available => server_available
  | .quic server_available => server_available

/-- `impl From<HeaderRouterProtocol> for PeeringProtocol` from
`src/protocol.rs`. -/
def HeaderRouterProtocol.peering : HeaderRouterProtocol → PeeringProtocol
  | .tcp => PeeringProtocol.tcp
  | .tls _ => PeeringProtocol.tls
  | .quic _ => PeeringProtocol.quic

/-- `HeaderRouterProtocol::compatible` from `src/protocol.rs`. -/
def HeaderRouterProtocol.compatible (a b : HeaderRouterProtocol) : Bool :=
  a.peering == b.peering && (a.server_available || b.server_available)

/-- Step 12 (`// 12. Select connection mode`) of `try_session` in
`src/protocol.rs`.  `address` is the remote peer's overlay address (the
`SocketAddrV6` argument of `try_session`) and `state_router_address` is the
local router's own overlay address; `Ipv6Addr` ordering in Rust compares the
16 octets lexicographically, i.e. the numeric order of the 128-bit value,
modeled here as `Nat` order. -/
def selectConnectionMode (self_protocol remote_protocol : HeaderRouterProtocol)
    (address state_router_address : Nat) : ConnectionMode :=
  match self_protocol.peering with
  | PeeringProtocol.tcp => ConnectionMode.any
  | PeeringProtocol.tls | PeeringProtocol.quic =>
    if self_protocol.server_available == remote_protocol.server_available then
      if address < state_router_address then ConnectionMode.asClient
      else ConnectionMode.asServer
    else
      if self_protocol.server_available then ConnectionMode.asClient
      else ConnectionMode.asServer

/-- C1 (counterexample): both sides report `Tls { server_available: true }`;
the local overlay address `200::1` sorts lower than the remote `300::2`,
so the claim says the local side computes `ToEndpoint` (`AsClient`) — but
`try_session` compares `remote < self` and computes `AsServer` for the side
whose address sorts lower. -/
theorem connection_mode_tiebreak_counterexample :
    (2 * 2 ^ 120 + 1 : Nat) < 3 * 2 ^ 120 + 2 ∧
    selectConnectionMode (HeaderRouterProtocol.tls true) (HeaderRouterProtocol.tls true)
        (3 * 2 ^ 120 + 2) (2 * 2 ^ 120 + 1) = ConnectionMode.asServer ∧
    selectConnectionMode (HeaderRouterProtocol.tls true) (HeaderRouterProtocol.tls true)
        (3 * 2 ^ 120 + 2) (2 * 2 ^ 120 + 1) ≠ ConnectionMode.asClient := by
  refine ⟨by norm_num, by decide, by decide⟩

lemma selectConnectionMode_nontcp (sp rp : HeaderRouterProtocol) (a s : Nat)
    (h : sp.peering ≠ PeeringProtocol.tcp) :
    selectConnectionMode sp rp a s
      = if sp.server_available == rp.server_available then
          (if a < s then ConnectionMode.asClient else ConnectionMode.asServer)
        else if sp.server_available then ConnectionMode.asClient
          else ConnectionMode.asServer := by
  cases hp : sp.peering with
  | tcp => exact absurd hp h
  | tls => rw [selectConnectionMode, hp]
  | quic => rw [selectConnectionMode, hp]

/-- C1 (amended): for a TCP peering the computed mode is always `Any`; for a
TLS or QUIC peering where both sides report `server_available`, the side
whose own overlay address sorts HIGHER than the remote overlay address
computes `ToEndpoint` (`AsClient`) and the side sorting lower computes
`AsEndpoint` (`AsServer`); when exactly one side reports `server_available`,
that side computes `ToEndpoint`. -/
theorem connection_mode_selection (sp rp : HeaderRouterProtocol)
    (remoteAddr selfAddr : Nat) :
    (sp.peering = PeeringProtocol.tcp →
      selectConnectionMode sp rp remoteAddr selfAddr = ConnectionMode.any) ∧
    (sp.peering ≠ PeeringProtocol.tcp →
      sp.server_available = true → rp.server_available = true →
      (selectConnectionMode sp rp remoteAddr selfAddr = ConnectionMode.asClient
        ↔ remoteAddr < selfAddr)) ∧
    (sp.peering ≠ PeeringProtocol.tcp →
      sp.server_available = true → rp.server_available = true →
      (selectConnectionMode sp rp remoteAddr selfAddr = ConnectionMode.asServer
        ↔ ¬ remoteAddr < selfAddr)) ∧
    (sp.peering ≠ PeeringProtocol.tcp → sp.server_available ≠ rp.server_available →
      (selectConnectionMode sp rp remoteAddr selfAddr
        = if sp.server_available then ConnectionMode.asClient
          else ConnectionMode.asServer)) := by
  refine ⟨?_, ?_, ?_, ?_⟩
  · intro h
    cases sp <;> simp_all [selectConnectionMode, HeaderRouterProtocol.peering]
  · intro hne hs hr
    rw [selectConnectionMode_nontcp sp rp _ _ hne, hs, hr]
    by_cases hlt : remoteAddr < selfAddr <;> simp [hlt]
  · intro hne hs hr
    rw [selectConnectionMode_nontcp sp rp _ _ hne, hs, hr]
    by_cases hlt : remoteAddr < selfAddr <;> simp [hlt]
  · intro hne hsr
    rw [selectConnectionMode_nontcp sp rp _ _ hne]
    have hb : (sp.server_available == rp.server_available) = false :=
      beq_eq_false_iff_ne.mpr hsr
    simp [hb]

/-- C1 witness: the amended theorem applied at the spec's scenario D
addresses (`200::1` and `300::2`, both sides `Tls { server_available:
true }`): the side whose address sorts higher computes `AsClient`. -/
theorem connection_mode_selection_witness :
    (HeaderRouterProtocol.tls true).peering ≠ PeeringProtocol.tcp ∧
    (selectConnectionMode (HeaderRouterProtocol.tls true)
        (HeaderRouterProtocol.tls true) (2 * 2 ^ 120 + 1) (3 * 2 ^ 120 + 2)
      = ConnectionMode.asClient ↔ (2 * 2 ^ 120 + 1 : Nat) < 3 * 2 ^ 120 + 2) :=
  ⟨by decide,
   (connection_mode_selection (HeaderRouterProtocol.tls true)
      (HeaderRouterProtocol.tls true) (2 * 2 ^ 120 + 1)
      (3 * 2 ^ 120 + 2)).2.1 (by decide) rfl rfl⟩

/-! ### Nonce validation — `Nonce::try_from` in `src/bridge.rs` -/

/-- Byte predicate of `Nonce::try_from`: ASCII digit, lowercase letter, or
uppercase letter (`b'0'..=b'9' | b'a'..=b'z' | b'A'..=b'Z'`). -/
def nonceByteOk (b : Nat) : Bool :=
  (0x30 ≤ b && b ≤ 0x39) || (0x61 ≤ b && b ≤ 0x7a) || (0x41 ≤ b && b ≤ 0x5a)

/-- `Nonce::try_from` from `src/bridge.rs`, over the UTF-8 bytes of the
string (`nonce.len()` in Rust is the byte length, and `nonce.as_bytes()`
iterates the bytes). -/
def nonceTryFrom (nonce : List Nat) : Option (List Nat) :=
  if nonce.length == 16 && nonce.all nonceByteOk then some nonce else none

/-- C8: `Nonce::try_from(s)` succeeds iff `s` has byte length exactly 16 and
every byte is an ASCII digit, a lowercase letter `a`–`z`, or an uppercase
letter `A`–`Z`.  In particular a nonce of sixteen `g` bytes (outside the
hexadecimal range) is accepted, while a 15-byte string and a string
containing `-` (0x2d) are rejected. -/
theorem nonce_try_from_spec (s : List Nat) :
    ((nonceTryFrom s).isSome ↔
      s.length = 16 ∧ ∀ b ∈ s,
        (0x30 ≤ b ∧ b ≤ 0x39) ∨ (0x61 ≤ b ∧ b ≤ 0x7a) ∨ (0x41 ≤ b ∧ b ≤ 0x5a)) ∧
    nonceTryFrom (List.replicate 16 0x67) = some (List.replicate 16 0x67) ∧
    nonceTryFrom (List.replicate 15 0x67) = none ∧
    nonceTryFrom (0x2d :: List.replicate 15 0x67) = none := by
  refine ⟨?_, by decide, by decide, by decide⟩
  rw [nonceTryFrom]
  by_cases h : (s.length == 16 && s.all nonceByteOk) = true
  · rw [if_pos h]
    simp only [Option.isSome_some, true_iff]
    simp only [Bool.and_eq_true, beq_iff_eq, List.all_eq_true] at h
    exact ⟨h.1, fun b hb => by
      have := h.2 b hb
      simp only [nonceByteOk, Bool.or_eq_true, Bool.and_eq_true,
        decide_eq_true_eq] at this
      tauto⟩
  · rw [if_neg h]
    simp only [Option.isSome_none, Bool.false_eq_true, false_iff]
    intro hc
    obtain ⟨h1, h2⟩ := hc
    apply h
    simp only [Bool.and_eq_true, beq_iff_eq, List.all_eq_true]
    exact ⟨h1, fun b hb => by
      have := h2 b hb
      simp only [nonceByteOk, Bool.or_eq_true, Bool.and_eq_true,
        decide_eq_true_eq]
      tauto⟩

/-! ### Whitelist matching — `spawn_new_sessions` in `src/session.rs` -/

/-- An IPv6 address as its 16 octets. -/
abbrev Ipv6Octets := List Nat

/-- `get_subnet_id` from `spawn_new_sessions`:
`u64::from_ne_bytes(address.octets()[..8])`.  `from_ne_bytes` is injective,
so the `u64` subnet key is modeled by the 8 octet bytes themselves. -/
def getSubnetId (a : Ipv6Octets) : List Nat :=
  a.take 8

/-- The two derived sets built by `spawn_new_sessions` (lines 127–153 of
`src/session.rs`): `HashSet` membership is modeled by list membership. -/
structure WhitelistSets where
  addresses : List Ipv6Octets
  subnets : List (List Nat)
deriving DecidableEq

/-- The `for address in whitelist` construction loop: a `0x03`-prefixed
entry contributes its first 8 octets with the first octet rewritten to
`0x02` as a subnet key (`subnet[0] = ADDRESS_PREFIX` after the
`to_ne_bytes`/`from_ne_bytes` round trip, which is the identity on the
bytes); any other entry is inserted as an address literal. -/
def buildWhitelist : List Ipv6Octets → WhitelistSets
  | [] => ⟨[], []⟩
  | a :: rest =>
    let s := buildWhitelist rest
    if a.headD 0 == 0x03 then
      { s with subnets := (getSubnetId a).set 0 0x02 :: s.subnets }
    else
      { s with addresses := a :: s.addresses }

/-- The membership closure returned by `spawn_new_sessions`:
`addresses.contains(address) || subnets.contains(&get_subnet_id(address))`.
Note the candidate's subnet key is its first 8 octets UNCHANGED. -/
def whitelistContains (s : WhitelistSets) (a : Ipv6Octets) : Bool :=
  s.addresses.contains a || s.subnets.contains (getSubnetId a)

/-- The claim's matching predicate, written from the spec's words: the
candidate matches if it is a literal entry, or its subnet key — the first
octet REWRITTEN from `0x02`/`0x03` to `0x02`, remaining 7 octets
unchanged — is among the subnet keys of the `0x03`-prefixed entries. -/
def claimSubnetKey (a : Ipv6Octets) : List Nat :=
  let k := getSubnetId a
  if k.headD 0 == 0x02 || k.headD 0 == 0x03 then k.set 0 0x02 else k

/-- Literal entries per the claim: whitelist entries not `0x03`-prefixed. -/
def claimLiterals (wl : List Ipv6Octets) : List Ipv6Octets :=
  wl.filter (fun w => !(w.headD 0 == 0x03))

/-- Subnet keys per the claim: `0x03`-prefixed entries, first octet
rewritten to `0x02`. -/
def claimSubnets (wl : List Ipv6Octets) : List (List Nat) :=
  (wl.filter (fun w => w.headD 0 == 0x03)).map (fun w => (getSubnetId w).set 0 0x02)

/-- The claim's acceptance predicate. -/
def claimWhitelistMatches (wl : List Ipv6Octets) (a : Ipv6Octets) : Bool :=
  (claimLiterals wl).contains a || (claimSubnets wl).contains (claimSubnetKey a)

/-- C3 (counterexample): whitelist containing the single `0x03`-prefixed
address `300::`; the candidate equal to that very address is rejected by the
code (its subnet key keeps the `0x03` first octet and the literal set is
empty), while the claim's predicate — which rewrites the candidate's first
octet to `0x02` — accepts it. -/
theorem whitelist_rewrite_counterexample :
    whitelistContains (buildWhitelist [0x03 :: List.replicate 15 0])
        (0x03 :: List.replicate 15 0) = false ∧
    claimWhitelistMatches [0x03 :: List.replicate 15 0]
        (0x03 :: List.replicate 15 0) = true := by
  constructor <;> decide

/-- C3 (amended): the session manager's whitelist check accepts a candidate
iff the candidate is present among the literal entries (whitelist entries
whose first octet is not `0x03`), or the candidate's first 8 octets —
UNCHANGED — are present among the subnet keys derived from the
`0x03`-prefixed entries (entry's first octet rewritten to `0x02`).  For
candidates whose first octet is `0x02` (every Yggdrasil session address)
this agrees with the claim's phrasing, which is the third conjunct. -/
theorem whitelist_matching (wl : List Ipv6Octets) (a : Ipv6Octets) :
    (whitelistContains (buildWhitelist wl) a = true ↔
      a ∈ claimLiterals wl ∨ getSubnetId a ∈ claimSubnets wl) ∧
    (a.headD 0 = 0x02 →
      whitelistContains (buildWhitelist wl) a = claimWhitelistMatches wl a) := by
  have hsets : ∀ w : List Ipv6Octets,
      (buildWhitelist w).addresses = claimLiterals w ∧
      (buildWhitelist w).subnets = claimSubnets w := by
    intro w
    induction w with
    | nil => exact ⟨rfl, rfl⟩
    | cons x rest ih =>
      by_cases hx : (x.headD 0 == 0x03) = true
      · have hl : claimLiterals (x :: rest) = claimLiterals rest := by
          simp only [claimLiterals, List.filter_cons]
          rw [if_neg (by rw [hx]; simp)]
        have hsub : claimSubnets (x :: rest)
            = (getSubnetId x).set 0 0x02 :: claimSubnets rest := by
          simp only [claimSubnets, List.filter_cons]
          rw [if_pos hx, List.map_cons]
        simp only [buildWhitelist, if_pos hx, hl, hsub]
        exact ⟨ih.1, by rw [ih.2]⟩
      · have hx2 : (x.headD 0 == 0x03) = false := by simpa using hx
        have hl : claimLiterals (x :: rest) = x :: claimLiterals rest := by
          simp only [claimLiterals, List.filter_cons]
          rw [if_pos (by rw [hx2]; simp)]
        have hsub : claimSubnets (x :: rest) = claimSubnets rest := by
          simp only [claimSubnets, List.filter_cons]
          rw [if_neg (by rw [hx2]; simp)]
        simp only [buildWhitelist, if_neg hx, hl, hsub]
        exact ⟨by rw [ih.1], ih.2⟩
  obtain ⟨ha, hs⟩ := hsets wl
  constructor
  · rw [whitelistContains, ha, hs]
    simp
  · intro h2
    have hkey : claimSubnetKey a = getSubnetId a := by
      rw [claimSubnetKey]
      have hk : (getSubnetId a).headD 0 = 0x02 := by
        cases a with
        | nil => simp at h2
        | cons x t => simpa [getSubnetId] using h2
      rw [if_pos (by rw [hk]; decide)]
      cases hkk : getSubnetId a with
      | nil => rfl
      | cons y t =>
        have : y = 0x02 := by rw [hkk] at hk; simpa using hk
        simp [this]
    rw [whitelistContains, claimWhitelistMatches, ha, hs, hkey]

/-- C3 witness: the amended theorem applied to a concrete whitelist holding
one literal `0x02` address and one `0x03` subnet entry, with a candidate in
that subnet. -/
theorem whitelist_matching_witness :
    (whitelistContains
        (buildWhitelist [0x02 :: List.replicate 15 1, 0x03 :: List.replicate 15 0])
        (0x02 :: (List.replicate 7 0 ++ List.replicate 8 9)) = true ↔
      (0x02 :: (List.replicate 7 0 ++ List.replicate 8 9)) ∈
          claimLiterals [0x02 :: List.replicate 15 1, 0x03 :: List.replicate 15 0] ∨
        getSubnetId (0x02 :: (List.replicate 7 0 ++ List.replicate 8 9)) ∈
          claimSubnets [0x02 :: List.replicate 15 1, 0x03 :: List.replicate 15 0]) :=
  (whitelist_matching _ _).1

/-! ### Retry timeout iterator — `Timeout` in `src/utils/timeout.rs`.
Durations are modeled as exact rationals: the source computes with
`Duration::div_f64` / `Duration::mul_f32`, whose rounding the claim
explicitly sets aside ("up to rounding"); the exact-arithmetic model is the
claim's idealised content. -/

/-- `struct Timeout` from `src/utils/timeout.rs`: `t0` is the base duration,
`cycles_left` counts remaining items, `next_scale` is `Some scale` for the
exponential variant and `None` for the linear one. -/
structure TimeoutIter where
  t0 : ℚ
  cycles_left : Nat
  next_scale : Option ℚ
deriving DecidableEq

/-- `Timeout::new_exponential`: `t0 = retry_time * cycle_count / (2 ^
cycle_count - 1)`, scale starts at 1. -/
def TimeoutIter.new_exponential (retry_time : ℚ) (cycle_count : Nat) : TimeoutIter :=
  ⟨retry_time * cycle_count / (2 ^ cycle_count - 1), cycle_count, some 1⟩

/-- `Timeout::new_linear`. -/
def TimeoutIter.new_linear (retry_time : ℚ) (cycle_count : Nat) : TimeoutIter :=
  ⟨retry_time, cycle_count, none⟩

/-- The `Iterator::next` loop of `Timeout`, run to exhaustion: each step
yields `t0 * scale` and doubles the scale (exponential), or yields `t0`
(linear), until `cycles_left` hits zero. -/
def timeoutCollect : Nat → ℚ → Option ℚ → List ℚ
  | 0, _, _ => []
  | n + 1, t0, some scale => t0 * scale :: timeoutCollect n t0 (some (scale * 2))
  | n + 1, t0, none => t0 :: timeoutCollect n t0 none

/-- All items yielded by a `Timeout` iterator, in order. -/
def TimeoutIter.collect (it : TimeoutIter) : List ℚ :=
  timeoutCollect it.cycles_left it.t0 it.next_scale

lemma timeoutCollect_exp (n : Nat) :
    ∀ (t0 s : ℚ), timeoutCollect n t0 (some s)
      = (List.range n).map (fun i => t0 * (s * 2 ^ i)) := by
  induction n with
  | zero => intro t0 s; rfl
  | succ n ih =>
    intro t0 s
    rw [timeoutCollect, ih t0 (s * 2), List.range_succ_eq_map]
    simp only [List.map_cons, List.map_map]
    congr 1
    · ring
    · congr 1
      funext i
      simp only [Function.comp_apply, Nat.succ_eq_add_one]
      ring

lemma timeoutCollect_exp_sum (n : Nat) :
    ∀ (t0 s : ℚ), (timeoutCollect n t0 (some s)).sum = t0 * s * (2 ^ n - 1) := by
  induction n with
  | zero => intro t0 s; simp [timeoutCollect]
  | succ n ih =>
    intro t0 s
    rw [timeoutCollect, List.sum_cons, ih t0 (s * 2)]
    ring

lemma timeoutCollect_linear (n : Nat) (t0 : ℚ) :
    timeoutCollect n t0 none = List.replicate n t0 := by
  induction n with
  | zero => rfl
  | succ n ih => rw [timeoutCollect, ih, List.replicate_succ]

/-- C6: for base retry duration `T` and cycle count `n ≥ 1`, the exponential
`Timeout` iterator yields exactly `n` durations, the `i`-th (0-based) equal
to `t0 * 2 ^ i` with `t0 = T * n / (2 ^ n - 1)`, and their sum equals
`T * n` (exactly, in the rounding-free model); the linear variant yields
exactly `n` durations each equal to `T`. -/
theorem timeout_iterator_spec (T : ℚ) (n : Nat) :
    (TimeoutIter.collect (TimeoutIter.new_exponential T n)).length = n ∧
    (∀ i, i < n →
      (TimeoutIter.collect (TimeoutIter.new_exponential T n))[i]?
        = some (T * n / (2 ^ n - 1) * 2 ^ i)) ∧
    (1 ≤ n → (TimeoutIter.collect (TimeoutIter.new_exponential T n)).sum = T * n) ∧
    TimeoutIter.collect (TimeoutIter.new_linear T n) = List.replicate n T := by
  have hexp : TimeoutIter.collect (TimeoutIter.new_exponential T n)
      = timeoutCollect n (T * n / (2 ^ n - 1)) (some 1) := rfl
  have hlin : TimeoutIter.collect (TimeoutIter.new_linear T n)
      = timeoutCollect n T none := rfl
  refine ⟨?_, ?_, ?_, by rw [hlin, timeoutCollect_linear]⟩
  · rw [hexp, timeoutCollect_exp, List.length_map, List.length_range]
  · intro i hi
    rw [hexp, timeoutCollect_exp, List.getElem?_map, List.getElem?_range hi,
      Option.map_some']
    congr 1
    ring
  · intro hn
    rw [hexp, timeoutCollect_exp_sum]
    have hpow : (2 : ℚ) ^ n - 1 ≠ 0 := by
      have h2 : (2 : ℚ) ^ 1 ≤ 2 ^ n := pow_le_pow_right₀ (by norm_num) hn
      have h3 : (2 : ℚ) ≤ 2 ^ n := by simpa using h2
      intro hc
      nlinarith
    field_simp

/-- C6 witness: the theorem at `T = 3`, `n = 2`: the exponential iterator
yields `[2, 4]` (with `t0 = 2`) summing to `6 = T * n`. -/
theorem timeout_iterator_spec_witness :
    (1 ≤ 2 →
      (TimeoutIter.collect (TimeoutIter.new_exponential 3 2)).sum = 3 * (2 : Nat)) ∧
    TimeoutIter.collect (TimeoutIter.new_linear 3 2) = List.replicate 2 3 :=
  ⟨(timeout_iterator_spec 3 2).2.2.1, (timeout_iterator_spec 3 2).2.2.2⟩

/-! ### External-address monitor — `monitor` in `src/stun.rs`.
One polling round of the `loop` collecting a fresh `Vec<ExternalAddress>`.
Network effects are abstracted: `probe local protocol server` is the outcome
of `lookup` for one server (`some external` on success), and `reorder` is
the (arbitrary) reordering the optional `shuffle` applies — any permutation
is a special case. -/

/-- `enum NetworkProtocol` from `src/bridge.rs`. -/
inductive NetworkProtocol where
  | tcp
  | udp
deriving DecidableEq

/-- The local `struct Server` of `monitor`: a server name with one
availability flag per transport. -/
structure StunServer where
  name : Nat
  tcp_status : Bool
  udp_status : Bool
deriving DecidableEq

/-- `Server::set` from `monitor`. -/
def StunServer.set (s : StunServer) : NetworkProtocol → Bool
  | NetworkProtocol.tcp => s.tcp_status
  | NetworkProtocol.udp => s.udp_status

/-- `Server::reset` from `monitor`. -/
def StunServer.reset (s : StunServer) (p : NetworkProtocol) (value : Bool) : StunServer :=
  match p with
  | NetworkProtocol.tcp => { s with tcp_status := value }
  | NetworkProtocol.udp => { s with udp_status := value }

/-- `struct ExternalAddress` from `src/stun.rs`; socket addresses are
abstract identifiers.  `localAddr` models the source field `local`
(a Lean keyword). -/
structure ExternalAddress where
  external : Nat
  localAddr : Nat
  protocol : NetworkProtocol
deriving DecidableEq

/-- The inner `for server in servers.iter_mut().filter(|s| s.set(protocol))`
loop of `monitor`: try available servers in order; the first success breaks
(later flags untouched); each failure clears the server's flag for this
transport. -/
def probeServers (probe : Nat → NetworkProtocol → Nat → Option Nat)
    (l : Nat) (p : NetworkProtocol) :
    List StunServer → List StunServer × Option Nat
  | [] => ([], none)
  | s :: rest =>
    if s.set p then
      match probe l p s.name with
      | some addr => (s :: rest, some addr)
      | none =>
        let r := probeServers probe l p rest
        (s.reset p false :: r.1, r.2)
    else
      let r := probeServers probe l p rest
      (s :: r.1, r.2)

/-- One `(local, protocol)` iteration of `monitor`: reset all flags for this
transport if every server was marked unavailable, optionally shuffle, then
probe servers; a success pushes a single `ExternalAddress` mapping. -/
def monitorStep (reorder : Nat → NetworkProtocol → List StunServer → List StunServer)
    (probe : Nat → NetworkProtocol → Nat → Option Nat)
    (servers : List StunServer) (l : Nat) (p : NetworkProtocol) :
    List StunServer × Option ExternalAddress :=
  let servers := if servers.all (fun s => !s.set p) then
      servers.map (fun s => s.reset p true)
    else servers
  let servers := reorder l p servers
  match probeServers probe l p servers with
  | (servers2, some addr) => (servers2, some ⟨addr, l, p⟩)
  | (servers2, none) => (servers2, none)

/-- The `for protocol in protocols` loop of one round. -/
def monitorProtos (reorder : Nat → NetworkProtocol → List StunServer → List StunServer)
    (probe : Nat → NetworkProtocol → Nat → Option Nat)
    (servers : List StunServer) (l : Nat) :
    List NetworkProtocol → List StunServer × List ExternalAddress
  | [] => (servers, [])
  | p :: ps =>
    match monitorStep reorder probe servers l p with
    | (s1, r) =>
      match monitorProtos reorder probe s1 l ps with
      | (s2, rs) => (s2, r.toList ++ rs)

/-- The `for local in local.iter()` loop of one round. -/
def monitorLocals (reorder : Nat → NetworkProtocol → List StunServer → List StunServer)
    (probe : Nat → NetworkProtocol → Nat → Option Nat)
    (servers : List StunServer) :
    List Nat → List NetworkProtocol → List StunServer × List ExternalAddress
  | [], _ => (servers, [])
  | l :: ls, ps =>
    match monitorProtos reorder probe servers l ps with
    | (s1, r1) =>
      match monitorLocals reorder probe s1 ls ps with
      | (s2, r2) => (s2, r1 ++ r2)

/-- `Itertools::unique` on the protocol list (`monitor` dedups
`yggdrasil_protocols` before the round): keep first occurrences. -/
def uniqueFirstAux : List NetworkProtocol → List NetworkProtocol → List NetworkProtocol
  | _, [] => []
  | seen, p :: ps =>
    if seen.contains p then uniqueFirstAux seen ps
    else p :: uniqueFirstAux (p :: seen) ps

/-- One full collection round of `monitor`: the `Vec<ExternalAddress>` that
gets published (when it differs from the previous value). -/
def monitorRound (reorder : Nat → NetworkProtocol → List StunServer → List StunServer)
    (probe : Nat → NetworkProtocol → Nat → Option Nat)
    (servers : List StunServer) (locals : List Nat)
    (protocols : List NetworkProtocol) : List ExternalAddress :=
  (monitorLocals reorder probe servers locals (uniqueFirstAux [] protocols)).2

lemma uniqueFirstAux_nodup (ps : List NetworkProtocol) :
    ∀ seen, (uniqueFirstAux seen ps).Nodup ∧
      ∀ x ∈ uniqueFirstAux seen ps, x ∉ seen := by
  induction ps with
  | nil => intro seen; exact ⟨List.nodup_nil, by simp [uniqueFirstAux]⟩
  | cons p ps ih =>
    intro seen
    rw [uniqueFirstAux]
    by_cases hp : seen.contains p
    · rw [if_pos hp]
      exact ih seen
    · rw [if_neg hp]
      obtain ⟨hnd, hmem⟩ := ih (p :: seen)
      refine ⟨List.nodup_cons.mpr ⟨fun hc => ?_, hnd⟩, ?_⟩
      · exact hmem p hc (List.mem_cons_self _ _)
      · intro x hx
        rcases List.mem_cons.mp hx with rfl | hx2
        · simpa using hp
        · intro hxseen
          exact hmem x hx2 (List.mem_cons_of_mem _ hxseen)

lemma monitorStep_key (reorder : Nat → NetworkProtocol → List StunServer → List StunServer)
    (probe : Nat → NetworkProtocol → Nat → Option Nat)
    (servers : List StunServer) (l : Nat) (p : NetworkProtocol) :
    ∀ e ∈ (monitorStep reorder probe servers l p).2.toList,
      e.localAddr = l ∧ e.protocol = p := by
  intro e he
  rw [monitorStep] at he
  rcases hps : probeServers probe l p (reorder l p
      (if servers.all (fun s => !s.set p) then
        servers.map (fun s => s.reset p true) else servers)) with ⟨s2, r⟩
  rw [hps] at he
  cases r with
  | none => simp at he
  | some addr =>
    simp only [Option.toList_some, List.mem_singleton] at he
    subst he
    exact ⟨rfl, rfl⟩

lemma monitorProtos_keys (reorder : Nat → NetworkProtocol → List StunServer → List StunServer)
    (probe : Nat → NetworkProtocol → Nat → Option Nat) (l : Nat) :
    ∀ (ps : List NetworkProtocol) (servers : List StunServer),
      ((monitorProtos reorder probe servers l ps).2.map
          (fun e => (e.localAddr, e.protocol))).Sublist (ps.map (fun p => (l, p))) := by
  intro ps
  induction ps with
  | nil => intro servers; simp [monitorProtos]
  | cons p ps ih =>
    intro servers
    rcases hstep : monitorStep reorder probe servers l p with ⟨s1, r⟩
    rcases hrest : monitorProtos reorder probe s1 l ps with ⟨s2, rs⟩
    have hr := ih s1
    rw [hrest] at hr
    simp only [monitorProtos, hstep, hrest, List.map_append, List.map_cons]
    simp only at hr
    cases r with
    | none =>
      simp only [Option.toList_none, List.map_nil, List.nil_append]
      exact List.Sublist.cons _ hr
    | some e =>
      have hkey := monitorStep_key reorder probe servers l p e
        (by rw [hstep]; simp)
      simp only [Option.toList_some, List.map_cons, List.map_nil,
        List.singleton_append, List.cons_append, List.nil_append]
      rw [hkey.1, hkey.2]
      exact List.Sublist.cons₂ _ hr

lemma monitorLocals_local_mem
    (reorder : Nat → NetworkProtocol → List StunServer → List StunServer)
    (probe : Nat → NetworkProtocol → Nat → Option Nat) (ps : List NetworkProtocol) :
    ∀ (ls : List Nat) (servers : List StunServer),
      ∀ e ∈ (monitorLocals reorder probe servers ls ps).2, e.localAddr ∈ ls := by
  intro ls
  induction ls with
  | nil => intro servers e he; simp [monitorLocals] at he
  | cons m ms ihm =>
    intro servers e he
    rcases hp2 : monitorProtos reorder probe servers m ps with ⟨t1, q1⟩
    rcases hl2 : monitorLocals reorder probe t1 ms ps with ⟨t2, q2⟩
    simp only [monitorLocals, hp2, hl2, List.mem_append] at he
    rcases he with he | he
    · have hsub := monitorProtos_keys reorder probe m ps servers
      rw [hp2] at hsub
      simp only at hsub
      have hin := hsub.subset (List.mem_map_of_mem (fun e => (e.localAddr, e.protocol)) he)
      simp only [List.mem_map] at hin
      obtain ⟨q, _, hq⟩ := hin
      have he1 : e.localAddr = m := by
        have h2 := congrArg Prod.fst hq
        simp at h2
        omega
      simp [he1]
    · have := ihm t1 e (by rw [hl2]; exact he)
      exact List.mem_cons_of_mem _ this

lemma monitorLocals_keys (reorder : Nat → NetworkProtocol → List StunServer → List StunServer)
    (probe : Nat → NetworkProtocol → Nat → Option Nat) :
    ∀ (ls : List Nat) (ps : List NetworkProtocol) (servers : List StunServer),
      ls.Nodup → ps.Nodup →
      ((monitorLocals reorder probe servers ls ps).2.map
          (fun e => (e.localAddr, e.protocol))).Nodup := by
  intro ls
  induction ls with
  | nil => intro ps servers _ _; simp [monitorLocals]
  | cons l ls ih =>
    intro ps servers hnd hpnd
    rcases hp : monitorProtos reorder probe servers l ps with ⟨s1, r1⟩
    rcases hl : monitorLocals reorder probe s1 ls ps with ⟨s2, r2⟩
    simp only [monitorLocals, hp, hl, List.map_append, List.nodup_append]
    have hr1 := monitorProtos_keys reorder probe l ps servers
    rw [hp] at hr1
    simp only at hr1
    have hr1nd : (r1.map (fun e => (e.localAddr, e.protocol))).Nodup :=
      hr1.nodup ((List.nodup_map_iff (by intro a b h; cases h; rfl)).mpr hpnd)
    have hr2nd := ih ps s1 (List.nodup_cons.mp hnd).2 hpnd
    rw [hl] at hr2nd
    simp only at hr2nd
    refine ⟨hr1nd, hr2nd, ?_⟩
    intro k hk1 hk2
    have hk1l : k.1 = l := by
      have := hr1.subset hk1
      simp only [List.mem_map] at this
      obtain ⟨q, _, hq⟩ := this
      rw [← hq]
    have hk2e : ∃ e ∈ r2, (e.localAddr, e.protocol) = k := by
      simpa [List.mem_map] using hk2
    obtain ⟨e, he, hek⟩ := hk2e
    have hmem := monitorLocals_local_mem reorder probe ps ls s1 e (by rw [hl]; exact he)
    have hk1ls : k.1 ∈ ls := by
      rw [← hek]
      simpa using hmem
    rw [hk1l] at hk1ls
    exact absurd hk1ls (List.nodup_cons.mp hnd).1

/-- C7: every `Vec` of external-address mappings collected by one monitor
round contains at most one entry per `(local, transport)` pair: for each
local socket and transport the inner server loop stops at the first STUN
server that succeeds, and the protocol list is dedup-ed (`unique()`), so
with distinct local sockets no two entries share both fields. -/
theorem monitor_round_nodup
    (reorder : Nat → NetworkProtocol → List StunServer → List StunServer)
    (probe : Nat → NetworkProtocol → Nat → Option Nat)
    (servers : List StunServer) (locals : List Nat)
    (protocols : List NetworkProtocol) (hl : locals.Nodup) :
    ((monitorRound reorder probe servers locals protocols).map
        (fun e => (e.localAddr, e.protocol))).Nodup :=
  monitorLocals_keys reorder probe locals (uniqueFirstAux [] protocols) servers hl
    (uniqueFirstAux_nodup protocols []).1

/-- C7 witness: a concrete round with two local sockets, a duplicated
protocol list, one server, and an always-succeeding probe. -/
theorem monitor_round_nodup_witness :
    (([0, 1] : List Nat).Nodup) ∧
    ((monitorRound (fun _ _ s => s) (fun _ _ _ => some 9)
        [⟨0, true, true⟩] [0, 1]
        [NetworkProtocol.tcp, NetworkProtocol.udp, NetworkProtocol.tcp]).map
          (fun e => (e.localAddr, e.protocol))).Nodup :=
  ⟨by decide,
   monitor_round_nodup (fun _ _ s => s) (fun _ _ _ => some 9)
     [⟨0, true, true⟩] [0, 1]
     [NetworkProtocol.tcp, NetworkProtocol.udp, NetworkProtocol.tcp] (by decide)⟩

/-! ### NAT traversal — `traverse_udp` in `src/network.rs`.

Two aspects are modeled separately: the registration prologue (lines
194–223, claim C9) and the prober loop (lines 231–362, claim C2).  Network
nondeterminism is supplied as an input script: one `TravCycle` per loop
iteration, carrying the outcome of this iteration's `send` and the events
the `select!` can observe before the cycle timer expires. -/

/-- The `b"jmpr"` transaction-id magic.  Modelled from the spec: the
constant `JUMPER_PREFIX` is imported from `crate::protocol` but its
definition is not among the files under `src/`; spec §6 fixes it as the
4 bytes `b"jmpr"`. -/
def jumperMagic : List Nat := [0x6a, 0x6d, 0x70, 0x72]

/-- `stun_codec::MessageClass`. -/
inductive StunClass where
  | request
  | indication
  | successResponse
  | errorResponse
deriving DecidableEq

/-- Shape of one datagram arriving on the prober's raw socket:
a buffer starting with the jumper magic (`buf.starts_with(JUMPER_PREFIX)`),
a decodable STUN BINDING message with a jumper transaction id (carrying its
class, extracted session id, and whether `MessageIntegrity` verifies), or
anything else (`parse_stun_message` fails and the packet is skipped).
A STUN message on the wire starts with `0x00`/`0x01` type bytes, never with
`b"jmpr"`, so the shapes are disjoint as in the source's check order. -/
inductive RawPacket where
  | jumperPrefixed
  | stunMsg (cls : StunClass) (session_id : Nat) (integrityOk : Bool)
  | garbage
deriving DecidableEq

/-- One event observed inside the `select!`: a `socket.recv` error, a raw
datagram, or a message from the global listener's channel (`conn_routine`;
those were already verified by `inet_listener`). -/
inductive TravEvent where
  | recvErr (err : Nat)
  | raw (pkt : RawPacket)
  | fromChan (addr : Nat) (cls : StunClass)
deriving DecidableEq

/-- One iteration of the prober loop: the outcome of this iteration's
`socket.send` (`some err` models a send error) and the events delivered
before the cycle timer expires; if the whole list is consumed without a
select winner, the `delay` branch fires (`continue`). -/
structure TravCycle where
  sendErr : Option Nat
  events : List TravEvent
deriving DecidableEq

/-- Transport errors recorded in `last_error`. -/
inductive TravError where
  | io (err : Nat)
  | timedOut
deriving DecidableEq

/-- `struct InetTraversal` from `src/network.rs` (the shared secret is an
abstract identifier; integrity outcomes are carried by the packets). -/
structure InetTraversal where
  session_id : Nat
  shared_secret : Nat
deriving DecidableEq

/-- Mutable state of the prober loop. -/
structure TravState where
  send_ack : Bool
  got_remote_ack : Bool
  last_error : Option TravError
  remote : Nat
  counter : Nat
deriving DecidableEq

/-- `verify_stun_message_integrity`: the extracted session id must equal
the registered one and the short-term-credential check must pass. -/
def verifyStun (inet : InetTraversal) (session_id : Nat) (integrityOk : Bool) : Bool :=
  session_id == inet.session_id && integrityOk

/-- `last_error` update after a failed `socket.send`. -/
def updateSendErr (le : Option TravError) : Option Nat → Option TravError
  | some err => some (TravError.io err)
  | none => le

/-- The concurrent `select!` over `recv_routine` / `conn_routine` / the
cycle timer, as one interleaved scan of this cycle's events (the script
chooses the interleaving).  Returns the updated `last_error` and the select
winner `(source address?, class)`, or `none` when the timer expires first.
Mirrors the source's filters: recv errors record `last_error` and continue;
jumper-prefixed datagrams yield `Indication`; STUN messages failing
verification (inet mode) are skipped; `Request` while already in ACK mode
is skipped on both channels; the channel does not exist in mode 1
(`inet = none`). -/
def travSelect (inet : Option InetTraversal) (send_ack : Bool) :
    Option TravError → List TravEvent →
      Option TravError × Option (Option Nat × StunClass)
  | le, [] => (le, none)
  | le, e :: rest =>
    match e with
    | TravEvent.recvErr err => travSelect inet send_ack (some (TravError.io err)) rest
    | TravEvent.raw RawPacket.jumperPrefixed => (le, some (none, StunClass.indication))
    | TravEvent.raw RawPacket.garbage => travSelect inet send_ack le rest
    | TravEvent.raw (RawPacket.stunMsg cls sid ok) =>
      if (match inet with
          | some i => verifyStun i sid ok
          | none => true) then
        if cls == StunClass.request && send_ack then travSelect inet send_ack le rest
        else (le, some (none, cls))
      else travSelect inet send_ack le rest
    | TravEvent.fromChan addr cls =>
      if inet.isSome then
        if cls == StunClass.request && send_ack then travSelect inet send_ack le rest
        else (le, some (some addr, cls))
      else travSelect inet send_ack le rest

/-- The `while counter > 0` prober loop of `traverse_udp`.  Each iteration
decrements `counter`, sends (recording a send error), selects, reconnects
on a changed source address, and updates the ACK flags exactly as the
source's `match message` does; `Indication` breaks out of the loop.  An
exhausted script stands for "no further packets ever arrive": the remaining
iterations only decrement `counter` and change no observable state, so the
loop result equals the current state. -/
def travLoop (retry_count : Nat) (inet : Option InetTraversal) :
    TravState → List TravCycle → TravState
  | st, [] => st
  | st, c :: rest =>
    if st.counter = 0 then st
    else
      let st1 : TravState :=
        { st with
          counter := st.counter - 1,
          last_error := updateSendErr st.last_error c.sendErr }
      match travSelect inet st1.send_ack st1.last_error c.events with
      | (le2, none) => travLoop retry_count inet { st1 with last_error := le2 } rest
      | (le2, some (addrOpt, cls)) =>
        let st2 : TravState :=
          { st1 with
            last_error := le2,
            remote := addrOpt.getD st1.remote }
        match cls with
        | StunClass.request =>
          if !st2.send_ack then
            travLoop retry_count inet
              { st2 with
                counter := st2.counter + retry_count / 2,
                send_ack := true } rest
          else travLoop retry_count inet st2 rest
        | StunClass.successResponse =>
          if !st2.got_remote_ack then
            travLoop retry_count inet
              { st2 with
                send_ack := true,
                got_remote_ack := true,
                counter := 2 } rest
          else travLoop retry_count inet st2 rest
        | StunClass.indication => st2
        | StunClass.errorResponse => travLoop retry_count inet st2 rest

/-- Result of `traverse_udp` (inner `IoResult`): the connected socket on
success, an error otherwise. -/
inductive TravOutcome where
  | success
  | failure (err : TravError)
deriving DecidableEq

/-- The post-loop accounting of `traverse_udp`: `Ok(socket)` iff
`got_remote_ack`, else the last transport error or `TimedOut`. -/
def travResult (st : TravState) : TravOutcome :=
  if st.got_remote_ack then TravOutcome.success
  else TravOutcome.failure (st.last_error.getD TravError.timedOut)

/-- A full prober run: initial state as in the source (`send_ack = false`,
`got_remote_ack = false`, `last_error = None`, `counter = retry_count`). -/
def traverse_udp_run (retry_count : Nat) (inet : Option InetTraversal)
    (remote : Nat) (script : List TravCycle) : TravOutcome × TravState :=
  let fin := travLoop retry_count inet
    ⟨false, false, none, remote, retry_count⟩ script
  (travResult fin, fin)

/-- An event that delivers a valid remote ACK (a `SuccessResponse` passing
verification, on either channel). -/
def eventIsValidAck (inet : Option InetTraversal) : TravEvent → Bool
  | TravEvent.raw (RawPacket.stunMsg StunClass.successResponse sid ok) =>
    match inet with
    | some i => verifyStun i sid ok
    | none => true
  | TravEvent.fromChan _ StunClass.successResponse => inet.isSome
  | _ => false

/-- The script contains a valid remote ACK somewhere. -/
def scriptHasValidAck (inet : Option InetTraversal) (script : List TravCycle) : Bool :=
  script.any (fun c => c.events.any (eventIsValidAck inet))

/-- C2 (counterexample): inet traversal with `retry_count = 3`; the very
first event is a raw datagram starting with the jumper magic (peer already
past traversal).  The loop terminates immediately — but since no
`SuccessResponse` was ever received, `traverse_udp` returns
`Err(TimedOut)`, not the connected socket, refuting "terminates
successfully". -/
theorem traverse_indication_counterexample :
    (traverse_udp_run 3 (some ⟨77, 5⟩) 0
        [⟨none, [TravEvent.raw RawPacket.jumperPrefixed]⟩]).1
      = TravOutcome.failure TravError.timedOut ∧
    (traverse_udp_run 3 (some ⟨77, 5⟩) 0
        [⟨none, [TravEvent.raw RawPacket.jumperPrefixed]⟩]).1
      ≠ TravOutcome.success := by
  constructor <;> decide

lemma hasAck_cons_rest {inet : Option InetTraversal} {c : TravCycle}
    {rest : List TravCycle} (h : scriptHasValidAck inet rest = true) :
    scriptHasValidAck inet (c :: rest) = true := by
  simp only [scriptHasValidAck, List.any_cons, Bool.or_eq_true] at h ⊢
  exact Or.inr h

lemma hasAck_cons_events {inet : Option InetTraversal} {c : TravCycle}
    {rest : List TravCycle} (h : c.events.any (eventIsValidAck inet) = true) :
    scriptHasValidAck inet (c :: rest) = true := by
  simp only [scriptHasValidAck, List.any_cons, Bool.or_eq_true]
  exact Or.inl h

lemma travSelect_success_ack (inet : Option InetTraversal) (send_ack : Bool) :
    ∀ (evs : List TravEvent) (le le2 : Option TravError) (a : Option Nat),
      travSelect inet send_ack le evs = (le2, some (a, StunClass.successResponse)) →
      evs.any (eventIsValidAck inet) = true := by
  intro evs
  induction evs with
  | nil => intro le le2 a hx; simp [travSelect] at hx
  | cons e es ihe =>
    intro le le2 a hx
    simp only [List.any_cons, Bool.or_eq_true]
    rcases e with err | pkt | ⟨addr2, cls2⟩
    · simp only [travSelect] at hx
      exact Or.inr (ihe _ _ _ hx)
    · rcases pkt with _ | ⟨cls2, sid2, ok2⟩ | _
      · simp [travSelect] at hx
      · simp only [travSelect] at hx
        split at hx
        · rename_i hv
          split at hx
          · exact Or.inr (ihe _ _ _ hx)
          · simp only [Prod.mk.injEq, Option.some.injEq] at hx
            obtain ⟨-, -, rfl⟩ := hx
            exact Or.inl (by simpa [eventIsValidAck] using hv)
        · exact Or.inr (ihe _ _ _ hx)
      · simp only [travSelect] at hx
        exact Or.inr (ihe _ _ _ hx)
    · simp only [travSelect] at hx
      split at hx
      · rename_i hi
        split at hx
        · exact Or.inr (ihe _ _ _ hx)
        · simp only [Prod.mk.injEq, Option.some.injEq] at hx
          obtain ⟨-, -, rfl⟩ := hx
          exact Or.inl (by simpa [eventIsValidAck] using hi)
      · exact Or.inr (ihe _ _ _ hx)

lemma travLoop_got_ack (retry_count : Nat) (inet : Option InetTraversal) :
    ∀ (script : List TravCycle) (st : TravState),
      (travLoop retry_count inet st script).got_remote_ack = true →
      st.got_remote_ack = true ∨ scriptHasValidAck inet script = true := by
  intro script
  induction script with
  | nil => intro st h; exact Or.inl h
  | cons c rest ih =>
    intro st h
    by_cases hc : st.counter = 0
    · simp only [travLoop, if_pos hc] at h
      exact Or.inl h
    · simp only [travLoop, if_neg hc] at h
      split at h
      · rcases ih _ h with h2 | h2
        · exact Or.inl h2
        · exact Or.inr (hasAck_cons_rest h2)
      · rename_i le2 addrOpt cls heq
        split at h
        · split at h
          · rcases ih _ h with h2 | h2
            · exact Or.inl h2
            · exact Or.inr (hasAck_cons_rest h2)
          · rcases ih _ h with h2 | h2
            · exact Or.inl h2
            · exact Or.inr (hasAck_cons_rest h2)
        · exact Or.inr (hasAck_cons_events
            (travSelect_success_ack inet st.send_ack c.events _ _ _ heq))
        · exact Or.inl h
        · rcases ih _ h with h2 | h2
          · exact Or.inl h2
          · exact Or.inr (hasAck_cons_rest h2)


/-- C2 (amended): receiving an `Indication`-class message — or a raw
datagram beginning with the jumper prefix from a peer already past
traversal — terminates the prober loop immediately (the rest of the script
is never examined); and in EVERY terminating run, including those, the
result is success iff a valid `SuccessResponse` (remote ACK) was processed
(`got_remote_ack`), which requires one in the input; otherwise the last
transport error, or `TimedOut` if none, is returned. -/
theorem traverse_udp_termination (retry_count : Nat) (inet : Option InetTraversal)
    (remote : Nat) (script : List TravCycle) :
    ((traverse_udp_run retry_count inet remote script).1 = TravOutcome.success ↔
      (traverse_udp_run retry_count inet remote script).2.got_remote_ack = true) ∧
    ((traverse_udp_run retry_count inet remote script).2.got_remote_ack = false →
      (traverse_udp_run retry_count inet remote script).1
        = TravOutcome.failure
            ((traverse_udp_run retry_count inet remote script).2.last_error.getD
              TravError.timedOut)) ∧
    ((traverse_udp_run retry_count inet remote script).2.got_remote_ack = true →
      scriptHasValidAck inet script = true) ∧
    (∀ (st : TravState) (c : TravCycle) (rest : List TravCycle)
        (le2 : Option TravError) (a : Option Nat),
      st.counter ≠ 0 →
      travSelect inet st.send_ack (updateSendErr st.last_error c.sendErr) c.events
        = (le2, some (a, StunClass.indication)) →
      travLoop retry_count inet st (c :: rest) = travLoop retry_count inet st [c]) := by
  refine ⟨?_, ?_, ?_, ?_⟩
  · simp only [traverse_udp_run, travResult]
    by_cases h : (travLoop retry_count inet
        ⟨false, false, none, remote, retry_count⟩ script).got_remote_ack = true
    · rw [if_pos h]
      simp [h]
    · rw [if_neg h]
      simp [h]
  · intro h
    simp only [traverse_udp_run] at h ⊢
    simp [travResult, h]
  · intro h
    simp only [traverse_udp_run] at h
    rcases travLoop_got_ack retry_count inet script _ h with h2 | h2
    · simp at h2
    · exact h2
  · intro st c rest le2 a hc hsel
    simp only [travLoop, if_neg hc, hsel]

/-- C2 witness: a run whose single cycle delivers a verified
`SuccessResponse` ends in success, and the amended accounting holds there. -/
theorem traverse_udp_termination_witness :
    ((traverse_udp_run 3 (some ⟨77, 5⟩) 0
        [⟨none, [TravEvent.raw (RawPacket.stunMsg StunClass.successResponse 77 true)]⟩]).1
          = TravOutcome.success ↔
      (traverse_udp_run 3 (some ⟨77, 5⟩) 0
        [⟨none, [TravEvent.raw (RawPacket.stunMsg StunClass.successResponse 77 true)]⟩]).2.got_remote_ack
          = true) :=
  (traverse_udp_termination 3 (some ⟨77, 5⟩) 0
    [⟨none, [TravEvent.raw (RawPacket.stunMsg StunClass.successResponse 77 true)]⟩]).1

/-! ### `traverse_udp` registration prologue (lines 194–223 of
`src/network.rs`) and the `defer_async` cleanup guard
(`src/utils/defer.rs`) — claim C9. -/

/-- `active_inet_traversal`, an assoc list from `session_id` to the
registered session (abstracted to its channel id), with `HashMap`
lookup/entry semantics. -/
def travMapLookup : List (Nat × Nat) → Nat → Option Nat
  | [], _ => none
  | (k, v) :: rest, key => if k == key then some v else travMapLookup rest key

/-- Removal performed by the deferred cleanup
(`state.active_inet_traversal.write().await.remove(&session_id)`). -/
def travMapErase (m : List (Nat × Nat)) (key : Nat) : List (Nat × Nat) :=
  m.filter (fun kv => !(kv.1 == key))

/-- Observable outcome of the registration prologue of `traverse_udp` when
called with `Some(inet)`: whether it returned `Err(AlreadyExists)`, whether
control reached `utils::create_udp_socket` (line 225) or any `socket.send`
(line 271), whether `_drop_guard.forget()` was called, and the map contents
after the prologue. -/
structure TravEntryResult where
  alreadyExists : Bool
  socketCreated : Bool
  sentPacket : Bool
  guardForgotten : Bool
  mapDuring : List (Nat × Nat)
deriving DecidableEq

/-- The prologue: the cleanup guard is armed, then `lock.entry(session_id)`
is checked.  If the entry is occupied the guard is forgotten and
`ErrorKind::AlreadyExists` is returned — before the socket is created and
before anything is sent.  If vacant, the session is inserted and the run
proceeds (creating the socket and sending probes). -/
def traverseEntryPhase (m : List (Nat × Nat)) (session_id chan : Nat) : TravEntryResult :=
  match travMapLookup m session_id with
  | some _ =>
    { alreadyExists := true, socketCreated := false, sentPacket := false,
      guardForgotten := true, mapDuring := m }
  | none =>
    { alreadyExists := false, socketCreated := true, sentPacket := true,
      guardForgotten := false, mapDuring := (session_id, chan) :: m }

/-- `DeferGuard` semantics from `src/utils/defer.rs`: on drop (task exit)
the deferred removal runs unless `forget()` cleared it. -/
def traverseExitMap (r : TravEntryResult) (session_id : Nat) : List (Nat × Nat) :=
  if r.guardForgotten then r.mapDuring else travMapErase r.mapDuring session_id

/-- C9: calling `traverse_udp` with an `InetTraversal` whose `session_id`
is already registered returns `AlreadyExists` before creating any socket or
sending any packet; the map is left unchanged by the prologue, and —
because the failing call's cleanup guard was forgotten — the pre-existing
registration is still present after the call exits. -/
theorem traverse_udp_already_exists (m : List (Nat × Nat)) (sid chan chan2 : Nat)
    (h : travMapLookup m sid = some chan) :
    (traverseEntryPhase m sid chan2).alreadyExists = true ∧
    (traverseEntryPhase m sid chan2).socketCreated = false ∧
    (traverseEntryPhase m sid chan2).sentPacket = false ∧
    (traverseEntryPhase m sid chan2).mapDuring = m ∧
    traverseExitMap (traverseEntryPhase m sid chan2) sid = m ∧
    travMapLookup (traverseExitMap (traverseEntryPhase m sid chan2) sid) sid
      = some chan := by
  simp [traverseEntryPhase, traverseExitMap, h]

/-- C9 witness: the theorem at a concrete one-entry map. -/
theorem traverse_udp_already_exists_witness :
    travMapLookup [(7, 1)] 7 = some 1 ∧
    ((traverseEntryPhase [(7, 1)] 7 2).alreadyExists = true ∧
     (traverseEntryPhase [(7, 1)] 7 2).socketCreated = false ∧
     (traverseEntryPhase [(7, 1)] 7 2).sentPacket = false ∧
     (traverseEntryPhase [(7, 1)] 7 2).mapDuring = [(7, 1)] ∧
     traverseExitMap (traverseEntryPhase [(7, 1)] 7 2) 7 = [(7, 1)] ∧
     travMapLookup (traverseExitMap (traverseEntryPhase [(7, 1)] 7 2) 7) 7 = some 1) :=
  ⟨by decide, traverse_udp_already_exists [(7, 1)] 7 1 2 (by decide)⟩

/-! ### Lossy shortcut sender — `SendLossy::send` in `src/yggdrasil_dpi.rs`
(claim C10). -/

/-- Destination of one emitted chunk: the raw UDP socket (`peer.send`), the
KCP channel (`kcp.send`), or dropped (oversize traffic packet with
`fallback_to_reliable` off). -/
inductive SendChan where
  | udp
  | kcp
  | drop
deriving DecidableEq

/-- The fields of `struct SendLossy`. -/
structure SendState where
  skip : Nat
  udp_mtu : Nat
  fallback_to_reliable : Bool
  permanent_fallback : Bool
deriving DecidableEq

/-- Result of one `send` call: the chunks handed to each channel in order,
the unconsumed bytes the source's `copy_within` moves to the start of the
buffer (`Ok(n)` returns `left.length`), and the state after the call.
Socket writes are modeled as infallible: the claim is about `Ok` returns,
and every `Err` path in the source returns without an `Ok(n)`. -/
structure SendOut where
  events : List (SendChan × List Nat)
  left : List Nat
  st : SendState
deriving DecidableEq

/-- The two nested `while` loops of `SendLossy::send`, fused into one
recursion with explicit fuel (every iteration either consumes at least one
byte or — the `Packet::Truncated` arm — sets `skip > 0` and re-enters the
consuming skip branch, so `2 * |buf| + 1` fuel always suffices; running out
of fuel yields the same `⟨[], [], st⟩` as an empty buffer).  Branches, in
source order: empty buffer exits with `Ok(0)`; `skip != 0` forwards
`min(skip, len)` bytes into KCP (`checked_sub` cannot fail — `to_skip ≤
skip` — so its `recover` arm is dead code); otherwise the next packet is
parsed: `Invalid` → `recover` (permanent fallback; whole rest to KCP;
`Ok(0)`), `TruncatedHeader` → return the remaining bytes, `Traffic` within
MTU → UDP, oversize `Traffic` → dropped or KCP per `fallback_to_reliable`,
`Meta` → KCP, `Truncated(len)` → `skip += len` and loop. -/
def sendLossyLoop : Nat → SendState → List Nat → SendOut
  | 0, st, _ => ⟨[], [], st⟩
  | fuel + 1, st, tw =>
    if tw = [] then ⟨[], [], st⟩
    else if st.skip ≠ 0 then
      let to_skip := min st.skip tw.length
      let r := sendLossyLoop fuel { st with skip := st.skip - to_skip } (tw.drop to_skip)
      ⟨(SendChan.kcp, tw.take to_skip) :: r.events, r.left, r.st⟩
    else
      match parse_yggdrasil_packet tw with
      | Packet.invalid =>
        ⟨[(SendChan.kcp, tw)], [], { st with permanent_fallback := true }⟩
      | Packet.truncatedHeader => ⟨[], tw, st⟩
      | Packet.traffic len =>
        if len ≤ st.udp_mtu then
          let r := sendLossyLoop fuel st (tw.drop len)
          ⟨(SendChan.udp, tw.take len) :: r.events, r.left, r.st⟩
        else if !st.fallback_to_reliable then
          let r := sendLossyLoop fuel st (tw.drop len)
          ⟨(SendChan.drop, tw.take len) :: r.events, r.left, r.st⟩
        else
          let r := sendLossyLoop fuel st (tw.drop len)
          ⟨(SendChan.kcp, tw.take len) :: r.events, r.left, r.st⟩
      | Packet.meta len =>
        let r := sendLossyLoop fuel st (tw.drop len)
        ⟨(SendChan.kcp, tw.take len) :: r.events, r.left, r.st⟩
      | Packet.truncated len =>
        sendLossyLoop fuel { st with skip := st.skip + len } tw

/-- `SendLossy::send`: the `permanent_fallback` early return (`recover`:
everything into KCP, `Ok(0)`), else the loop. -/
def sendLossy (st : SendState) (buf : List Nat) : SendOut :=
  if st.permanent_fallback then ⟨[(SendChan.kcp, buf)], [], st⟩
  else sendLossyLoop (2 * buf.length + 1) st buf

lemma sendLossyLoop_left (fuel : Nat) :
    ∀ (st : SendState) (tw : List Nat),
      (sendLossyLoop fuel st tw).left ≠ [] →
      parse_yggdrasil_packet (sendLossyLoop fuel st tw).left = Packet.truncatedHeader ∧
      (sendLossyLoop fuel st tw).st.skip = 0 ∧
      ((sendLossyLoop fuel st tw).events.map Prod.snd).flatten
          ++ (sendLossyLoop fuel st tw).left = tw := by
  induction fuel with
  | zero =>
    intro st tw h
    simp [sendLossyLoop] at h
  | succ fuel ih =>
    intro st tw h
    by_cases htw : tw = []
    · simp [sendLossyLoop, htw] at h
    · by_cases hskip : st.skip ≠ 0
      · simp only [sendLossyLoop, if_neg htw, if_pos hskip] at h ⊢
        obtain ⟨h1, h2, h3⟩ := ih _ _ h
        refine ⟨h1, h2, ?_⟩
        simp only [List.map_cons, List.flatten_cons, List.append_assoc, h3]
        exact List.take_append_drop _ tw
      · simp only [sendLossyLoop, if_neg htw, if_neg hskip] at h ⊢
        rcases hp : parse_yggdrasil_packet tw with _ | _ | len | len | len <;>
          simp only [hp] at h ⊢
        · simp at h
        · refine ⟨trivial, by omega, by simp⟩
        · exact ih _ _ h
        · by_cases hmtu : len ≤ st.udp_mtu
          · simp only [if_pos hmtu] at h ⊢
            obtain ⟨h1, h2, h3⟩ := ih _ _ h
            refine ⟨h1, h2, ?_⟩
            simp only [List.map_cons, List.flatten_cons, List.append_assoc, h3]
            exact List.take_append_drop _ tw
          · simp only [if_neg hmtu] at h ⊢
            by_cases hfb : (!st.fallback_to_reliable) = true
            · simp only [if_pos hfb] at h ⊢
              obtain ⟨h1, h2, h3⟩ := ih _ _ h
              refine ⟨h1, h2, ?_⟩
              simp only [List.map_cons, List.flatten_cons, List.append_assoc, h3]
              exact List.take_append_drop _ tw
            · simp only [if_neg hfb] at h ⊢
              obtain ⟨h1, h2, h3⟩ := ih _ _ h
              refine ⟨h1, h2, ?_⟩
              simp only [List.map_cons, List.flatten_cons, List.append_assoc, h3]
              exact List.take_append_drop _ tw
        · obtain ⟨h1, h2, h3⟩ := ih _ _ h
          refine ⟨h1, h2, ?_⟩
          simp only [List.map_cons, List.flatten_cons, List.append_assoc, h3]
          exact List.take_append_drop _ tw

/-- C10: whenever `SendLossy::send` returns `Ok(n)` with `n > 0` (modeled:
`left ≠ []`), the buffer ended in a truncated packet header: the final `n`
unconsumed bytes (returned as `left`, which the source copies to the start
of the buffer) parse as `TruncatedHeader`, the `skip` counter is 0, every
chunk emitted on the UDP socket, the KCP channel, or dropped comes — in
order — from the consumed prefix, so nothing was emitted for those `n`
bytes, and `left` is exactly the final `n` bytes of the buffer. -/
theorem send_lossy_truncated_header (st : SendState) (buf : List Nat)
    (h : (sendLossy st buf).left ≠ []) :
    parse_yggdrasil_packet (sendLossy st buf).left = Packet.truncatedHeader ∧
    (sendLossy st buf).st.skip = 0 ∧
    ((sendLossy st buf).events.map Prod.snd).flatten ++ (sendLossy st buf).left = buf ∧
    (sendLossy st buf).left
      = buf.drop (buf.length - (sendLossy st buf).left.length) := by
  by_cases hpf : st.permanent_fallback = true
  · simp [sendLossy, hpf] at h
  · rw [sendLossy, if_neg hpf] at h ⊢
    obtain ⟨h1, h2, h3⟩ := sendLossyLoop_left (2 * buf.length + 1) st buf h
    refine ⟨h1, h2, h3, ?_⟩
    set L := (sendLossyLoop (2 * buf.length + 1) st buf).left with hLdef
    set A := ((sendLossyLoop (2 * buf.length + 1) st buf).events.map
      Prod.snd).flatten with hAdef
    have hlen : A.length = buf.length - L.length := by
      have := congrArg List.length h3
      simp only [List.length_append] at this
      omega
    rw [← hlen, ← h3, List.drop_left]

/-- C10 witness: a buffer holding one complete traffic packet within the
MTU followed by a truncated header (a lone `0x80` varint byte): the call
returns `Ok(1)`, the leftover byte parses as `TruncatedHeader`, `skip`
is 0, and the emitted chunks account exactly for the consumed prefix. -/
theorem send_lossy_truncated_header_witness :
    (sendLossy ⟨0, 16, false, false⟩ [2, 9, 5, 0x80]).left ≠ [] ∧
    (parse_yggdrasil_packet (sendLossy ⟨0, 16, false, false⟩ [2, 9, 5, 0x80]).left
        = Packet.truncatedHeader ∧
      (sendLossy ⟨0, 16, false, false⟩ [2, 9, 5, 0x80]).st.skip = 0 ∧
      ((sendLossy ⟨0, 16, false, false⟩ [2, 9, 5, 0x80]).events.map
          Prod.snd).flatten
          ++ (sendLossy ⟨0, 16, false, false⟩ [2, 9, 5, 0x80]).left
        = [2, 9, 5, 0x80] ∧
      (sendLossy ⟨0, 16, false, false⟩ [2, 9, 5, 0x80]).left
        = [2, 9, 5, 0x80].drop (([2, 9, 5, 0x80] : List Nat).length
            - (sendLossy ⟨0, 16, false, false⟩ [2, 9, 5, 0x80]).left.length)) :=
  ⟨by decide, send_lossy_truncated_header ⟨0, 16, false, false⟩ [2, 9, 5, 0x80]
    (by decide)⟩

end YggdrasilJumper
